import Mathlib

/-!
Verification of the chunked range-request relay in src/yt.py.

The embedding models the three components the claims are about:

* Size Prober (Streamer.get_total_chunks, lines 208-215): a HEAD request
  whose outcome is either a transport failure (httpx raises, there is no
  try/except in the source) or a response carrying an optional
  Content-Length value; on success the chunk count is the ceiling
  division of the size by the chunk size.

* Remote Range Fetcher (Streamer.fetch_chunk, lines 217-227): a GET whose
  outcome is either a transport failure (raises: no try/except in the
  source) or a status code plus body; statuses 200 and 206 return the
  body, every other status returns None.

* Chunked Relay Engine (Streamer.stream_file, lines 229-257): the pairwise
  main loop followed by the cleanup (repair) pass.  The loop is modelled
  with explicit fuel because for an unknown total size the Python loop
  condition is always true.  Network nondeterminism is modelled by two
  oracles: the result of the single main-loop fetch of each index, and the
  result of the single repair-pass fetch of each index.

Bytes are lists of naturals; Python truthiness of an Optional bytes value
(None and the empty byte string are falsy) is the predicate truthy.
-/

/-- A byte string, as delivered by one range request. -/
abbrev Bytes := List Nat

/-- Python truthiness of an Optional bytes value: None and the empty
byte string are falsy, any nonempty byte string is truthy.  This is the
test the source applies with if cur, if nxt and if miss. -/
def truthy : Option Bytes → Bool
  | none => false
  | some b => !b.isEmpty

/-- The fixed chunk size of the Streamer: 1 MiB (src/yt.py line 206). -/
def chunk_size : Nat := 1 * 1024 * 1024

/-- The inclusive byte range requested for a chunk index
(src/yt.py lines 218-220): start = id * chunk_size,
end = start + chunk_size - 1. -/
def chunk_range (chunk_id : Nat) : Nat × Nat :=
  (chunk_id * chunk_size, chunk_id * chunk_size + chunk_size - 1)

/-- Outcome of the HEAD request issued by get_total_chunks: either the
transport layer fails (httpx raises), or a response arrives carrying an
optional numeric Content-Length header. -/
inductive HeadResult where
  | netError : HeadResult
  | ok (contentLength : Option Nat) : HeadResult

/-- Streamer.get_total_chunks (src/yt.py lines 208-215).  The source has
no try/except, so a transport failure of the HEAD request propagates as a
raised exception, modelled as Except.error.  When the response lacks a
Content-Length the method returns None (modelled ok none); otherwise it
returns the ceiling division of the size by the chunk size. -/
def get_total_chunks (head : HeadResult) : Except Unit (Option Nat) :=
  match head with
  | HeadResult.netError => Except.error ()
  | HeadResult.ok none => Except.ok none
  | HeadResult.ok (some size) =>
      Except.ok (some ((size + chunk_size - 1) / chunk_size))

/-- Outcome of the GET request issued by fetch_chunk: either the transport
layer fails or times out (httpx raises), or a response arrives with a
status code and a body. -/
inductive FetchResult where
  | transportError : FetchResult
  | status (code : Nat) (body : Bytes) : FetchResult

/-- Streamer.fetch_chunk response handling (src/yt.py lines 223-227).
The source has no try/except, so a transport error or timeout propagates
as a raised exception, modelled as Except.error.  Status 200 or 206
returns the body unmodified; any other status returns None. -/
def fetch_chunk (resp : FetchResult) : Except Unit (Option Bytes) :=
  match resp with
  | FetchResult.transportError => Except.error ()
  | FetchResult.status code body =>
      if code = 200 ∨ code = 206 then Except.ok (some body) else Except.ok none

/-- The condition of the main while loop (src/yt.py line 234):
total is None or c_id < total. -/
def loopCond (total : Option Nat) (c_id : Nat) : Bool :=
  match total with
  | none => true
  | some n => decide (c_id < n)

/-- One await point of the main loop (src/yt.py lines 239-242 for the
current chunk, 244-247 for the look-ahead): if the fetched value is
truthy, the index is added to the received set and the bytes are yielded
(recorded here with their index); otherwise nothing happens. -/
def emitStep (f : Nat → Option Bytes) (i : Nat) (received : Finset Nat) :
    List (Nat × Bytes) × Finset Nat :=
  if truthy (f i) then ([(i, (f i).getD [])], insert i received)
  else ([], received)

/-- Result of running the main loop: the emitted (index, bytes) pairs in
order, the received set, the final cursor value, the number of iterations
executed, and whether the loop condition became false (finished = false
means the fuel ran out while the condition still held). -/
structure LoopResult where
  emits : List (Nat × Bytes)
  received : Finset Nat
  cFinal : Nat
  iters : Nat
  finished : Bool
  deriving DecidableEq

/-- The main pairwise loop of Streamer.stream_file (src/yt.py lines
234-249), run with explicit fuel.  Each iteration processes the current
chunk c_id and then the look-ahead chunk c_id + 1 (the two fetches are
concurrent in the source but are awaited, and their effects applied, in
this order), then advances the cursor by 2.  The oracle f gives the
outcome of the single main-loop fetch of each index. -/
def mainLoopFuel (f : Nat → Option Bytes) (total : Option Nat) :
    Nat → Nat → Finset Nat → LoopResult
  | 0, c_id, received =>
      if loopCond total c_id then ⟨[], received, c_id, 0, false⟩
      else ⟨[], received, c_id, 0, true⟩
  | fuel + 1, c_id, received =>
      if loopCond total c_id then
        let p1 := emitStep f c_id received
        let p2 := emitStep f (c_id + 1) p1.2
        let rest := mainLoopFuel f total fuel (c_id + 2) p2.2
        ⟨p1.1 ++ p2.1 ++ rest.emits, rest.received, rest.cFinal,
          rest.iters + 1, rest.finished⟩
      else ⟨[], received, c_id, 0, true⟩

/-- The indices the cleanup pass attempts to fetch (src/yt.py lines
253-255): every index in range total that is not in the received set,
visited in ascending order. -/
def repairAttempts (total : Nat) (received : Finset Nat) : List Nat :=
  (List.range total).filter fun i => decide (i ∉ received)

/-- The body of one cleanup-pass iteration (src/yt.py lines 254-257): if
the index is not in received, fetch it once (oracle g) and yield the
bytes if truthy; an absent result is silently dropped. -/
def repairFn (g : Nat → Option Bytes) (received : Finset Nat) (i : Nat) :
    Option (Nat × Bytes) :=
  if i ∉ received then
    if truthy (g i) then some (i, (g i).getD []) else none
  else none

/-- The cleanup pass of Streamer.stream_file (src/yt.py lines 252-257):
for each index in range total, run the cleanup body. -/
def repairPass (g : Nat → Option Bytes) (total : Nat) (received : Finset Nat) :
    List (Nat × Bytes) :=
  (List.range total).filterMap (repairFn g received)

/-- The guard if total at src/yt.py line 252: Python treats both None and
0 as falsy, so the cleanup pass runs only when the total is known and
nonzero. -/
def repairOrNothing (g : Nat → Option Bytes) (total : Option Nat)
    (received : Finset Nat) : List (Nat × Bytes) :=
  match total with
  | none => []
  | some n => if n = 0 then [] else repairPass g n received

/-- The generator body of Streamer.stream_file after the size probe
returned total: the main loop (with fuel) followed by the cleanup pass.
Returns none when the fuel is exhausted with the loop condition still
true, which is the fuel-indexed surrogate for non-termination. -/
def streamBody (f g : Nat → Option Bytes) (total : Option Nat) (fuel : Nat) :
    Option (List (Nat × Bytes)) :=
  let L := mainLoopFuel f total fuel 0 ∅
  if L.finished then some (L.emits ++ repairOrNothing g total L.received)
  else none

/-- Streamer.stream_file (src/yt.py lines 229-257): probe the size, then
run the generator body.  A raised exception from the probe propagates. -/
def stream_file (head : HeadResult) (f g : Nat → Option Bytes) (fuel : Nat) :
    Except Unit (Option (List (Nat × Bytes))) :=
  match get_total_chunks head with
  | Except.error e => Except.error e
  | Except.ok total => Except.ok (streamBody f g total fuel)

/-- The byte blocks a session delivers, in order, forgetting the ghost
index annotations. -/
def outputBytes (l : List (Nat × Bytes)) : List Bytes :=
  l.map Prod.snd

/-- A stored stream descriptor: the values at the keys file_url and
file_name of the dict kept in the database (src/yt.py lines 290-293);
dict.get yields None for a missing key. -/
structure FileData where
  file_url : Option String
  file_name : Option String

/-- Python truthiness of an Optional str: None and the empty string are
falsy. -/
def strTruthy : Option String → Bool
  | none => false
  | some s => !s.isEmpty

/-- Response of the /stream endpoint: either a JSON error body with the
given message, or an established streaming response relaying the given
remote URL under the given filename. -/
inductive StreamResponse where
  | jsonError (msg : String) : StreamResponse
  | streaming (file_url : String) (file_name : String) : StreamResponse
  deriving Repr, DecidableEq

/-- The /stream endpoint stream_from_stream_url (src/yt.py lines
312-338): look the identifier up in the database; if it is missing, or
the stored file_url or file_name is falsy, return the JSON error body;
otherwise establish the streaming response. -/
def stream_from_stream_url (database : String → Option FileData)
    (stream_id : String) : StreamResponse :=
  match database stream_id with
  | none => StreamResponse.jsonError "Invalid stream request!"
  | some fd =>
      if !strTruthy fd.file_url || !strTruthy fd.file_name then
        StreamResponse.jsonError "Invalid stream request!"
      else
        StreamResponse.streaming (fd.file_url.getD "") (fd.file_name.getD "")

/-- Oracle normalisation: collapse a successful fetch with an empty body
into an absent fetch.  Used to state that delivery is decided by the
truthiness of the bytes, not by fetch success. -/
def normalizeFetch (f : Nat → Option Bytes) : Nat → Option Bytes :=
  fun i => match f i with
  | none => none
  | some b => if b.isEmpty then none else some b

/-- Fetch outcomes of the unknown-size scenario: chunk 0 is present (one
nonzero byte) and every later fetch is absent. -/
def onlyChunk0 : Nat → Option Bytes :=
  fun i => if i = 0 then some [1] else none

/-- A fetch oracle for which every request succeeds with one nonzero
byte; used to instantiate universally quantified statements. -/
def constOracle : Nat → Option Bytes :=
  fun _ => some [1]

/-! Helper lemmas about the main loop. -/

theorem mainLoopFuel_zero (f : Nat → Option Bytes) (total : Option Nat)
    (c : Nat) (r : Finset Nat) :
    mainLoopFuel f total 0 c r =
      if loopCond total c then ⟨[], r, c, 0, false⟩ else ⟨[], r, c, 0, true⟩ :=
  rfl

theorem mainLoopFuel_succ (f : Nat → Option Bytes) (total : Option Nat)
    (fuel c : Nat) (r : Finset Nat) :
    mainLoopFuel f total (fuel + 1) c r =
      if loopCond total c then
        let p1 := emitStep f c r
        let p2 := emitStep f (c + 1) p1.2
        let rest := mainLoopFuel f total fuel (c + 2) p2.2
        ⟨p1.1 ++ p2.1 ++ rest.emits, rest.received, rest.cFinal,
          rest.iters + 1, rest.finished⟩
      else ⟨[], r, c, 0, true⟩ :=
  rfl

theorem emitStep_snd_subset (f : Nat → Option Bytes) (i : Nat) (r : Finset Nat) :
    r ⊆ (emitStep f i r).2 := by
  unfold emitStep
  split
  · exact Finset.subset_insert i r
  · exact Finset.Subset.refl r

theorem mainLoopFuel_received_mono (f : Nat → Option Bytes) (total : Option Nat) :
    ∀ (fuel c : Nat) (r : Finset Nat), r ⊆ (mainLoopFuel f total fuel c r).received := by
  intro fuel
  induction fuel with
  | zero =>
      intro c r
      rw [mainLoopFuel_zero]
      split <;> exact Finset.Subset.refl r
  | succ fuel ih =>
      intro c r
      rw [mainLoopFuel_succ]
      split
      · exact Finset.Subset.trans (emitStep_snd_subset f c r)
          (Finset.Subset.trans (emitStep_snd_subset f (c + 1) _) (ih (c + 2) _))
      · exact Finset.Subset.refl r

theorem emitStep_fst_cases (f : Nat → Option Bytes) (i : Nat) (r : Finset Nat) :
    (emitStep f i r).1 = [] ∨
      (emitStep f i r).1 = [(i, (f i).getD [])] ∧ i ∈ (emitStep f i r).2 := by
  unfold emitStep
  split
  · right
    exact ⟨rfl, Finset.mem_insert_self i r⟩
  · left
    rfl

theorem emitStep_map_fst (f : Nat → Option Bytes) (i : Nat) (r : Finset Nat) :
    (emitStep f i r).1.map Prod.fst = [] ∨ (emitStep f i r).1.map Prod.fst = [i] := by
  unfold emitStep
  split
  · right
    rfl
  · left
    rfl

theorem pairwise_glue (c : Nat) (l1 l2 rest : List Nat)
    (h1 : l1 = [] ∨ l1 = [c]) (h2 : l2 = [] ∨ l2 = [c + 1])
    (hp : List.Pairwise (· < ·) rest) (hb : ∀ j ∈ rest, c + 2 ≤ j) :
    List.Pairwise (· < ·) (l1 ++ l2 ++ rest) ∧
      ∀ j ∈ l1 ++ l2 ++ rest, c ≤ j := by
  have hp1 : List.Pairwise (· < ·) ((c + 1) :: rest) := by
    rw [List.pairwise_cons]
    exact ⟨fun j hj => by have := hb j hj; omega, hp⟩
  have hp2 : List.Pairwise (· < ·) (c :: (c + 1) :: rest) := by
    rw [List.pairwise_cons]
    refine ⟨?_, hp1⟩
    intro j hj
    rcases List.mem_cons.mp hj with h | h
    · omega
    · have := hb j h
      omega
  have hp3 : List.Pairwise (· < ·) (c :: rest) := by
    rw [List.pairwise_cons]
    exact ⟨fun j hj => by have := hb j hj; omega, hp⟩
  constructor
  · rcases h1 with h1 | h1 <;> rcases h2 with h2 | h2 <;> subst h1 <;> subst h2
    · simpa using hp
    · simpa using hp1
    · simpa using hp3
    · simpa using hp2
  · intro j hj
    simp only [List.mem_append] at hj
    rcases hj with (hj | hj) | hj
    · rcases h1 with h1 | h1 <;> subst h1 <;> simp at hj
      omega
    · rcases h2 with h2 | h2 <;> subst h2 <;> simp at hj
      omega
    · have := hb j hj
      omega

theorem mainLoopFuel_emits_indices (f : Nat → Option Bytes) (total : Option Nat) :
    ∀ (fuel c : Nat) (r : Finset Nat),
      List.Pairwise (· < ·) ((mainLoopFuel f total fuel c r).emits.map Prod.fst) ∧
      ∀ j ∈ (mainLoopFuel f total fuel c r).emits.map Prod.fst, c ≤ j := by
  intro fuel
  induction fuel with
  | zero =>
      intro c r
      rw [mainLoopFuel_zero]
      split <;> simp
  | succ fuel ih =>
      intro c r
      rw [mainLoopFuel_succ]
      split
      · dsimp only
        rw [List.map_append, List.map_append]
        obtain ⟨ihp, ihb⟩ := ih (c + 2) (emitStep f (c + 1) (emitStep f c r).2).2
        refine pairwise_glue c _ _ _ (emitStep_map_fst f c r)
          (emitStep_map_fst f (c + 1) _) ihp ?_
        intro j hj
        exact ihb j hj
      · simp

theorem emitStep_mem_pairs (f : Nat → Option Bytes) (i : Nat) (r : Finset Nat) :
    ∀ p ∈ (emitStep f i r).1, p.1 ∈ (emitStep f i r).2 := by
  unfold emitStep
  split
  · intro p hp
    simp only [List.mem_singleton] at hp
    subst hp
    exact Finset.mem_insert_self i r
  · intro p hp
    simp at hp

theorem mainLoopFuel_emits_mem_received (f : Nat → Option Bytes) (total : Option Nat) :
    ∀ (fuel c : Nat) (r : Finset Nat),
      ∀ p ∈ (mainLoopFuel f total fuel c r).emits,
        p.1 ∈ (mainLoopFuel f total fuel c r).received := by
  intro fuel
  induction fuel with
  | zero =>
      intro c r p hp
      rw [mainLoopFuel_zero] at hp ⊢
      revert hp
      split <;> simp
  | succ fuel ih =>
      intro c r p hp
      rw [mainLoopFuel_succ] at hp ⊢
      revert hp
      split
      · dsimp only
        intro hp
        rcases List.mem_append.mp hp with hp' | hrest
        · rcases List.mem_append.mp hp' with h1 | h2
          · have := emitStep_mem_pairs f c r p h1
            have h2s := emitStep_snd_subset f (c + 1) (emitStep f c r).2
            exact mainLoopFuel_received_mono f total fuel (c + 2) _ (h2s this)
          · have := emitStep_mem_pairs f (c + 1) (emitStep f c r).2 p h2
            exact mainLoopFuel_received_mono f total fuel (c + 2) _ this
        · exact ih (c + 2) _ p hrest
      · simp

theorem mainLoopFuel_finished_of_fuel (f : Nat → Option Bytes) (n : Nat) :
    ∀ (fuel c : Nat) (r : Finset Nat), n ≤ c + fuel →
      (mainLoopFuel f (some n) fuel c r).finished = true := by
  intro fuel
  induction fuel with
  | zero =>
      intro c r h
      rw [mainLoopFuel_zero]
      have : loopCond (some n) c = false := by
        simp only [loopCond, decide_eq_false_iff_not]
        omega
      rw [this]
      simp
  | succ fuel ih =>
      intro c r h
      rw [mainLoopFuel_succ]
      split
      · exact ih (c + 2) _ (by omega)
      · rfl

theorem mainLoopFuel_none_runs_forever (f : Nat → Option Bytes) :
    ∀ (fuel c : Nat) (r : Finset Nat),
      (mainLoopFuel f none fuel c r).finished = false ∧
        (mainLoopFuel f none fuel c r).iters = fuel := by
  intro fuel
  induction fuel with
  | zero =>
      intro c r
      rw [mainLoopFuel_zero]
      exact ⟨rfl, rfl⟩
  | succ fuel ih =>
      intro c r
      rw [mainLoopFuel_succ]
      have hc : loopCond none c = true := rfl
      rw [hc, if_pos rfl]
      dsimp only
      obtain ⟨h1, h2⟩ := ih (c + 2) (emitStep f (c + 1) (emitStep f c r).2).2
      exact ⟨h1, by rw [h2]⟩

theorem mainLoopFuel_emits_nil_of_absent (f : Nat → Option Bytes) (total : Option Nat) :
    ∀ (fuel c : Nat) (r : Finset Nat), (∀ i, c ≤ i → truthy (f i) = false) →
      (mainLoopFuel f total fuel c r).emits = [] := by
  intro fuel
  induction fuel with
  | zero =>
      intro c r _
      rw [mainLoopFuel_zero]
      split <;> rfl
  | succ fuel ih =>
      intro c r habs
      rw [mainLoopFuel_succ]
      split
      · dsimp only
        have e1 : (emitStep f c r).1 = [] := by
          unfold emitStep
          rw [habs c (Nat.le_refl c)]
          rfl
        have e2 : (emitStep f (c + 1) (emitStep f c r).2).1 = [] := by
          unfold emitStep
          rw [habs (c + 1) (by omega)]
          rfl
        rw [e1, e2, ih (c + 2) _ (fun i hi => habs i (by omega))]
        rfl
      · rfl

theorem mainLoopFuel_all_present (f : Nat → Option Bytes) (n : Nat)
    (hin : ∀ i, i < n → truthy (f i) = true)
    (hout : ∀ i, n ≤ i → truthy (f i) = false) :
    ∀ (fuel c : Nat) (r : Finset Nat), n ≤ c + 2 * fuel →
      (mainLoopFuel f (some n) fuel c r).emits.map Prod.fst = List.range' c (n - c) ∧
      (mainLoopFuel f (some n) fuel c r).iters = (n + 1 - c) / 2 ∧
      (mainLoopFuel f (some n) fuel c r).cFinal = c + 2 * ((n + 1 - c) / 2) ∧
      (∀ i, c ≤ i → i < n → i ∈ (mainLoopFuel f (some n) fuel c r).received) ∧
      (mainLoopFuel f (some n) fuel c r).finished = true := by
  intro fuel
  induction fuel with
  | zero =>
      intro c r h
      have hge : n ≤ c := by omega
      have hcond : loopCond (some n) c = false := by
        simp only [loopCond, decide_eq_false_iff_not]
        omega
      rw [mainLoopFuel_zero, hcond, if_neg Bool.false_ne_true]
      refine ⟨?_, by dsimp only; omega, by dsimp only; omega, ?_, rfl⟩
      · have : n - c = 0 := by omega
        rw [this]
        rfl
      · intro i hci hin'
        omega
  | succ fuel ih =>
      intro c r h
      by_cases hc : c < n
      · have hcond : loopCond (some n) c = true := by
          simp only [loopCond, decide_eq_true_eq]
          exact hc
        rw [mainLoopFuel_succ, hcond, if_pos rfl]
        dsimp only
        have e1 : emitStep f c r = ([(c, (f c).getD [])], insert c r) := by
          unfold emitStep
          rw [hin c hc, if_pos rfl]
        obtain ⟨ihm, ihi, ihc, ihr, ihf⟩ :=
          ih (c + 2) (emitStep f (c + 1) (emitStep f c r).2).2 (by omega)
        by_cases hc1 : c + 1 < n
        · have e2 : emitStep f (c + 1) (emitStep f c r).2 =
              ([(c + 1, (f (c + 1)).getD [])], insert (c + 1) (emitStep f c r).2) := by
            unfold emitStep
            rw [hin (c + 1) hc1, if_pos rfl]
          refine ⟨?_, by rw [ihi]; omega, by rw [ihc]; omega, ?_, ihf⟩
          · have key : List.range' c (n - c) =
                c :: (c + 1) :: List.range' (c + 2) (n - (c + 2)) := by
              rw [show n - c = (n - (c + 2)) + 1 + 1 from by omega,
                List.range'_succ, List.range'_succ,
                show c + 1 + 1 = c + 2 from by omega]
            rw [List.map_append, List.map_append, ihm, e2, e1, key]
            simp
          · intro i hci hilt
            rcases Nat.lt_or_ge i (c + 2) with hlt | hge2
            · refine mainLoopFuel_received_mono f (some n) fuel (c + 2) _ ?_
              rw [e2, e1]
              have hi : i = c ∨ i = c + 1 := by omega
              rcases hi with hi | hi <;> simp [hi]
            · exact ihr i hge2 hilt
        · have hn1 : n = c + 1 := by omega
          have e2 : emitStep f (c + 1) (emitStep f c r).2 =
              ([], (emitStep f c r).2) := by
            unfold emitStep
            rw [hout (c + 1) (by omega), if_neg Bool.false_ne_true]
          refine ⟨?_, by rw [ihi]; omega, by rw [ihc]; omega, ?_, ihf⟩
          · have key : List.range' c (n - c) = [c] := by
              rw [show n - c = 0 + 1 from by omega, List.range'_succ]
              rfl
            have h0 : n - (c + 2) = 0 := by omega
            rw [List.map_append, List.map_append, ihm, e2, e1, key, h0]
            simp
          · intro i hci hilt
            have hi : i = c := by omega
            refine mainLoopFuel_received_mono f (some n) fuel (c + 2) _ ?_
            rw [e2, e1]
            simp [hi]
      · have hcond : loopCond (some n) c = false := by
          simp only [loopCond, decide_eq_false_iff_not]
          exact hc
        rw [mainLoopFuel_succ, hcond, if_neg Bool.false_ne_true]
        refine ⟨?_, by dsimp only; omega, by dsimp only; omega, ?_, rfl⟩
        · have : n - c = 0 := by omega
          rw [this]
          rfl
        · intro i hci hin'
          omega

/-! Helper lemmas about the repair pass. -/

theorem repairAttempts_mem (n : Nat) (R : Finset Nat) (i : Nat) :
    i ∈ repairAttempts n R ↔ i < n ∧ i ∉ R := by
  simp [repairAttempts, List.mem_filter, List.mem_range]

theorem repairAttempts_nodup (n : Nat) (R : Finset Nat) :
    (repairAttempts n R).Nodup :=
  (List.nodup_range n).filter _

theorem repairAttempts_sorted (n : Nat) (R : Finset Nat) :
    List.Pairwise (· < ·) (repairAttempts n R) :=
  (List.sorted_lt_range n).filter _

theorem repairFn_of_received (g : Nat → Option Bytes) (R : Finset Nat) (i : Nat)
    (h : i ∈ R) : repairFn g R i = none := by
  unfold repairFn
  rw [if_neg (by simpa using h)]

theorem repairFn_of_truthy (g : Nat → Option Bytes) (R : Finset Nat) (i : Nat)
    (h1 : i ∉ R) (h2 : truthy (g i) = true) :
    repairFn g R i = some (i, (g i).getD []) := by
  unfold repairFn
  rw [if_pos h1, if_pos h2]

theorem repairFn_of_absent (g : Nat → Option Bytes) (R : Finset Nat) (i : Nat)
    (h1 : i ∉ R) (h2 : truthy (g i) = false) :
    repairFn g R i = none := by
  unfold repairFn
  rw [if_pos h1, if_neg (by simp [h2])]

theorem filterMap_repairFn_map_fst (g : Nat → Option Bytes) (R : Finset Nat) :
    ∀ l : List Nat,
      ((l.filterMap (repairFn g R)).map Prod.fst) =
        ((l.filter fun i => decide (i ∉ R)).filter fun i => truthy (g i)) := by
  intro l
  induction l with
  | nil => rfl
  | cons i l ih =>
      rw [List.filterMap_cons, List.filter_cons]
      by_cases h1 : i ∈ R
      · rw [repairFn_of_received g R i h1,
          show decide (i ∉ R) = false from by simp [h1],
          if_neg Bool.false_ne_true]
        exact ih
      · rw [show decide (i ∉ R) = true from by simp [h1], if_pos rfl,
          List.filter_cons]
        by_cases h2 : truthy (g i) = true
        · rw [repairFn_of_truthy g R i h1 h2, h2, if_pos rfl, List.map_cons, ih]
        · have h2' : truthy (g i) = false := by simpa using h2
          rw [repairFn_of_absent g R i h1 h2', h2', if_neg Bool.false_ne_true]
          exact ih

theorem repairPass_map_fst (g : Nat → Option Bytes) (n : Nat) (R : Finset Nat) :
    (repairPass g n R).map Prod.fst =
      (repairAttempts n R).filter fun i => truthy (g i) := by
  unfold repairPass repairAttempts
  exact filterMap_repairFn_map_fst g R (List.range n)

theorem repairPass_mem (g : Nat → Option Bytes) (n : Nat) (R : Finset Nat)
    (p : Nat × Bytes) :
    p ∈ repairPass g n R ↔
      p.1 < n ∧ p.1 ∉ R ∧ truthy (g p.1) = true ∧ p.2 = (g p.1).getD [] := by
  unfold repairPass
  rw [List.mem_filterMap]
  constructor
  · rintro ⟨a, ha, hfa⟩
    rw [List.mem_range] at ha
    by_cases h1 : a ∈ R
    · rw [repairFn_of_received g R a h1] at hfa
      exact absurd hfa (by simp)
    · by_cases h2 : truthy (g a) = true
      · rw [repairFn_of_truthy g R a h1 h2] at hfa
        have hp : p = (a, (g a).getD []) := (Option.some_inj.mp hfa).symm
        subst hp
        exact ⟨ha, h1, h2, rfl⟩
      · rw [repairFn_of_absent g R a h1 (by simpa using h2)] at hfa
        exact absurd hfa (by simp)
  · rintro ⟨h1, h2, h3, h4⟩
    refine ⟨p.1, List.mem_range.mpr h1, ?_⟩
    rw [repairFn_of_truthy g R p.1 h2 h3, ← h4]

/-! Helper lemmas for oracle normalisation. -/

theorem normalizeFetch_truthy (f : Nat → Option Bytes) (i : Nat) :
    truthy (normalizeFetch f i) = truthy (f i) := by
  unfold normalizeFetch truthy
  cases h : f i with
  | none => rfl
  | some b => by_cases hb : b.isEmpty <;> simp [hb]

theorem normalizeFetch_getD (f : Nat → Option Bytes) (i : Nat)
    (h : truthy (f i) = true) : (normalizeFetch f i).getD [] = (f i).getD [] := by
  unfold normalizeFetch
  cases hf : f i with
  | none => rfl
  | some b =>
      have hb : b.isEmpty = false := by
        unfold truthy at h
        rw [hf] at h
        simpa using h
      simp [hb]

theorem emitStep_normalize (f : Nat → Option Bytes) (i : Nat) (r : Finset Nat) :
    emitStep (normalizeFetch f) i r = emitStep f i r := by
  unfold emitStep
  rw [normalizeFetch_truthy]
  by_cases h : truthy (f i) = true
  · rw [if_pos h, if_pos h, normalizeFetch_getD f i h]
  · rw [if_neg h, if_neg h]

theorem mainLoopFuel_normalize (f : Nat → Option Bytes) (total : Option Nat) :
    ∀ (fuel c : Nat) (r : Finset Nat),
      mainLoopFuel (normalizeFetch f) total fuel c r = mainLoopFuel f total fuel c r := by
  intro fuel
  induction fuel with
  | zero =>
      intro c r
      rfl
  | succ fuel ih =>
      intro c r
      by_cases hcond : loopCond total c = true
      · rw [mainLoopFuel_succ, mainLoopFuel_succ, if_pos hcond, if_pos hcond]
        dsimp only
        rw [emitStep_normalize, emitStep_normalize, ih]
      · rw [mainLoopFuel_succ, mainLoopFuel_succ, if_neg hcond, if_neg hcond]

theorem repairPass_normalize (g : Nat → Option Bytes) (n : Nat) (R : Finset Nat) :
    repairPass (normalizeFetch g) n R = repairPass g n R := by
  unfold repairPass
  refine List.filterMap_congr ?_
  intro i _
  by_cases h1 : i ∈ R
  · rw [repairFn_of_received _ R i h1, repairFn_of_received _ R i h1]
  · by_cases h2 : truthy (g i) = true
    · rw [repairFn_of_truthy _ R i h1 (by rw [normalizeFetch_truthy]; exact h2),
        repairFn_of_truthy _ R i h1 h2, normalizeFetch_getD g i h2]
    · have h2' : truthy (g i) = false := by simpa using h2
      rw [repairFn_of_absent _ R i h1 (by rw [normalizeFetch_truthy]; exact h2'),
        repairFn_of_absent _ R i h1 h2']

theorem repairOrNothing_normalize (g : Nat → Option Bytes) (total : Option Nat)
    (R : Finset Nat) :
    repairOrNothing (normalizeFetch g) total R = repairOrNothing g total R := by
  cases total with
  | none => rfl
  | some n =>
      unfold repairOrNothing
      by_cases hn : n = 0
      · simp [hn]
      · simp [hn, repairPass_normalize]

theorem streamBody_normalize (f g : Nat → Option Bytes) (total : Option Nat)
    (fuel : Nat) :
    streamBody (normalizeFetch f) (normalizeFetch g) total fuel =
      streamBody f g total fuel := by
  unfold streamBody
  dsimp only
  rw [mainLoopFuel_normalize, repairOrNothing_normalize]

/-! The claims. -/

/-- C1: claim C1 says that in a relay session whose size probe returned
unknown, with chunk 0 present and every later fetch absent, the session
emits chunk 0 only and terminates, treating the absent fetch as
end-of-stream.  The code does the opposite: the main loop condition
(total is None or c_id < total) is always true when total is None and the
loop body has no break, so the session never terminates.  For every fuel
bound the loop is still running (streamBody reports non-termination), the
loop consumes all its fuel, and the output stays exactly chunk 0 forever. -/
theorem C1_unknown_size_loops_forever (fuel : Nat) :
    streamBody onlyChunk0 onlyChunk0 none fuel = none ∧
    (mainLoopFuel onlyChunk0 none fuel 0 ∅).iters = fuel ∧
    (mainLoopFuel onlyChunk0 none (fuel + 1) 0 ∅).emits = [(0, [1])] := by
  obtain ⟨hfin, hiters⟩ := mainLoopFuel_none_runs_forever onlyChunk0 fuel 0 ∅
  refine ⟨?_, hiters, ?_⟩
  · unfold streamBody
    dsimp only
    rw [hfin, if_neg Bool.false_ne_true]
  · rw [mainLoopFuel_succ, if_pos (show loopCond none 0 = true from rfl)]
    dsimp only
    have e1 : emitStep onlyChunk0 0 ∅ = ([(0, [1])], insert 0 ∅) := by decide
    rw [e1]
    dsimp only
    have e2 : emitStep onlyChunk0 1 (insert 0 ∅) = ([], insert 0 ∅) := by decide
    rw [e2]
    dsimp only
    have habs : ∀ i, 2 ≤ i → truthy (onlyChunk0 i) = false := by
      intro i hi
      have h0 : onlyChunk0 i = none := by
        unfold onlyChunk0
        rw [if_neg (by omega)]
      rw [h0]
      rfl
    rw [mainLoopFuel_emits_nil_of_absent onlyChunk0 none fuel 2 (insert 0 ∅) habs]
    rfl

/-- C2 counterexample: the claim says any transport error or timeout is
returned as an absent chunk and never propagated as a raised error.  The
GET in fetch_chunk has no try/except, so a transport error or timeout
raises out of the fetcher (modelled Except.error), which is not the
absent result Except.ok none. -/
theorem C2_counterexample :
    fetch_chunk FetchResult.transportError = Except.error () ∧
    fetch_chunk FetchResult.transportError ≠ Except.ok none :=
  ⟨rfl, fun h => Except.noConfusion h⟩

/-- C2 amended: for every response that arrives, fetch_chunk returns the
body unmodified when the status is 200 or 206 and absent for every other
status, never raising; but a transport error or timeout is raised to the
relay session (there is no try/except), not represented as a missing
chunk. -/
theorem C2_fetch_chunk_amended :
    (∀ code body, fetch_chunk (FetchResult.status code body) =
      Except.ok (if code = 200 ∨ code = 206 then some body else none)) ∧
    fetch_chunk FetchResult.transportError = Except.error () := by
  refine ⟨fun code body => ?_, rfl⟩
  unfold fetch_chunk
  dsimp only
  by_cases h : code = 200 ∨ code = 206
  · rw [if_pos h, if_pos h]
  · rw [if_neg h, if_neg h]

/-- C3: for a resource of 3 chunks (size 3,000,000 bytes at 1 MiB chunk
size) where the main-loop fetch of chunk 1 is absent and every other
fetch, including the repair-pass re-fetch of chunk 1, succeeds, the
session emits exactly chunk0, chunk2, chunk1: the chunk recovered in the
repair pass is appended after all main-loop output regardless of its
index position. -/
theorem C3_repair_appended_out_of_order (b0 b1 b2 : Bytes)
    (h0 : b0.isEmpty = false) (h1 : b1.isEmpty = false) (h2 : b2.isEmpty = false) :
    stream_file (HeadResult.ok (some 3000000))
        (fun i => if i = 0 then some b0 else if i = 2 then some b2 else none)
        (fun i => if i = 0 then some b0 else if i = 1 then some b1 else
          if i = 2 then some b2 else none) 4 =
      Except.ok (some [(0, b0), (2, b2), (1, b1)]) ∧
    outputBytes [(0, b0), (2, b2), (1, b1)] = [b0, b2, b1] := by
  refine ⟨?_, rfl⟩
  have ht : get_total_chunks (HeadResult.ok (some 3000000)) = Except.ok (some 3) := by
    unfold get_total_chunks
    norm_num [chunk_size]
  unfold stream_file
  rw [ht]
  dsimp only
  have hL : mainLoopFuel
      (fun i => if i = 0 then some b0 else if i = 2 then some b2 else none)
      (some 3) 4 0 ∅ =
      ⟨[(0, b0), (2, b2)], insert 2 (insert 0 ∅), 4, 2, true⟩ := by
    simp [mainLoopFuel, emitStep, truthy, loopCond, h0, h2]
  have hR : repairPass (fun i => if i = 0 then some b0 else if i = 1 then some b1
        else if i = 2 then some b2 else none) 3 (insert 2 (insert 0 ∅)) = [(1, b1)] := by
    simp [repairPass, repairFn, truthy, h0, h1, h2, List.range_succ]
  unfold streamBody
  rw [hL]
  dsimp only
  rw [if_pos rfl]
  unfold repairOrNothing
  dsimp only
  rw [if_neg (show ¬(3 = 0) by decide), hR]
  rfl

/-- Witness for C3 at concrete one-byte chunks. -/
theorem C3_witness :
    ([10] : Bytes).isEmpty = false ∧
    stream_file (HeadResult.ok (some 3000000))
        (fun i => if i = 0 then some [10] else if i = 2 then some [12] else none)
        (fun i => if i = 0 then some [10] else if i = 1 then some [11] else
          if i = 2 then some [12] else none) 4 =
      Except.ok (some [(0, [10]), (2, [12]), (1, [11])]) :=
  ⟨rfl, (C3_repair_appended_out_of_order [10] [11] [12] rfl rfl rfl).1⟩

/-- C4: for every known total size (n the ceiling of size over the fixed
chunk size) and every pattern of main-loop fetch outcomes, once the main
loop has ended each chunk index below n is either in the received set or
appears exactly once in the ascending list of repair-pass fetch attempts;
the repair pass emits an attempted chunk exactly when its re-fetch is
truthy and silently drops it otherwise, never raising. -/
theorem C4_repair_pass_coverage (size fuel n : Nat) (f g : Nat → Option Bytes)
    (hn : n = (size + chunk_size - 1) / chunk_size) (hfuel : n ≤ fuel) :
    (mainLoopFuel f (some n) fuel 0 ∅).finished = true ∧
    (∀ i, i < n →
      (i ∈ (mainLoopFuel f (some n) fuel 0 ∅).received ∧
        i ∉ repairAttempts n (mainLoopFuel f (some n) fuel 0 ∅).received) ∨
      (i ∉ (mainLoopFuel f (some n) fuel 0 ∅).received ∧
        (repairAttempts n (mainLoopFuel f (some n) fuel 0 ∅).received).count i = 1)) ∧
    List.Pairwise (· < ·)
      (repairAttempts n (mainLoopFuel f (some n) fuel 0 ∅).received) ∧
    ((repairPass g n (mainLoopFuel f (some n) fuel 0 ∅).received).map Prod.fst =
      (repairAttempts n (mainLoopFuel f (some n) fuel 0 ∅).received).filter
        fun i => truthy (g i)) ∧
    (∀ i ∈ repairAttempts n (mainLoopFuel f (some n) fuel 0 ∅).received,
      truthy (g i) = true →
        (i, (g i).getD []) ∈
          repairPass g n (mainLoopFuel f (some n) fuel 0 ∅).received) ∧
    (∀ i ∈ repairAttempts n (mainLoopFuel f (some n) fuel 0 ∅).received,
      truthy (g i) = false →
        ∀ b, (i, b) ∉ repairPass g n (mainLoopFuel f (some n) fuel 0 ∅).received) := by
  have hfin := mainLoopFuel_finished_of_fuel f n fuel 0 ∅ (by omega)
  refine ⟨hfin, ?_, repairAttempts_sorted n _, repairPass_map_fst g n _, ?_, ?_⟩
  · intro i hi
    by_cases hR : i ∈ (mainLoopFuel f (some n) fuel 0 ∅).received
    · exact Or.inl ⟨hR, fun hA => ((repairAttempts_mem n _ i).mp hA).2 hR⟩
    · exact Or.inr ⟨hR, List.count_eq_one_of_mem (repairAttempts_nodup n _)
        ((repairAttempts_mem n _ i).mpr ⟨hi, hR⟩)⟩
  · intro i hiA htr
    rcases (repairAttempts_mem n _ i).mp hiA with ⟨hilt, hnotR⟩
    exact (repairPass_mem g n _ (i, (g i).getD [])).mpr ⟨hilt, hnotR, htr, rfl⟩
  · intro i hiA hfalse b hmem
    rcases (repairPass_mem g n _ (i, b)).mp hmem with ⟨_, _, htr, _⟩
    rw [hfalse] at htr
    exact Bool.false_ne_true htr

/-- Witness for C4 at size 1 (one chunk), one unit of fuel, and an oracle
for which every fetch succeeds. -/
theorem C4_witness :
    1 = (1 + chunk_size - 1) / chunk_size ∧
    (mainLoopFuel constOracle (some 1) 1 0 ∅).finished = true ∧
    ((repairPass constOracle 1 (mainLoopFuel constOracle (some 1) 1 0 ∅).received).map
        Prod.fst =
      (repairAttempts 1 (mainLoopFuel constOracle (some 1) 1 0 ∅).received).filter
        fun i => truthy (constOracle i)) :=
  ⟨by decide,
    (C4_repair_pass_coverage 1 1 1 constOracle constOracle (by decide) (le_refl 1)).1,
    (C4_repair_pass_coverage 1 1 1 constOracle constOracle (by decide)
      (le_refl 1)).2.2.2.1⟩

/-- C5: the chunks that succeed during the main loop are emitted in
strictly increasing chunk-index order: within an iteration the current
chunk precedes its look-ahead partner and iterations are fully processed
in cursor order, so no emission is reordered across pairs. -/
theorem C5_main_loop_emission_order (f : Nat → Option Bytes) (total : Option Nat)
    (fuel : Nat) :
    List.Pairwise (· < ·) ((mainLoopFuel f total fuel 0 ∅).emits.map Prod.fst) :=
  (mainLoopFuel_emits_indices f total fuel 0 ∅).1

/-- C6 counterexample: the claim says the size prober never raises, making
network failure indistinguishable from a missing Content-Length.  The
HEAD request in get_total_chunks has no try/except, so a network failure
raises out of the prober (modelled Except.error), which is
distinguishable from the unknown result Except.ok none. -/
theorem C6_counterexample :
    get_total_chunks HeadResult.netError = Except.error () ∧
    get_total_chunks HeadResult.netError ≠ Except.ok none :=
  ⟨rfl, fun h => Except.noConfusion h⟩

/-- C6 amended: the size prober returns unknown exactly when the HEAD
request succeeds without a usable Content-Length, returns the ceiling
chunk count when a length is reported, and raises to its caller on
network failure of the header-only request. -/
theorem C6_prober_amended :
    get_total_chunks (HeadResult.ok none) = Except.ok none ∧
    (∀ size, get_total_chunks (HeadResult.ok (some size)) =
      Except.ok (some ((size + chunk_size - 1) / chunk_size))) ∧
    get_total_chunks HeadResult.netError = Except.error () :=
  ⟨rfl, fun _ => rfl, rfl⟩

/-- C7: for a resource of n chunks with every in-range fetch succeeding
and every out-of-range fetch absent, the main loop finishes, emits all n
chunks in index order, performs ceil(n/2) iterations (exactly n/2 when n
is even), leaves nothing for the repair pass, and when n is odd the final
iteration processes the pair (n-1, n), so its look-ahead index equals n
and the final cursor is n+1; the out-of-range fetch is absorbed as an
always-absent fetch without any error. -/
theorem C7_pairing_property (n fuel : Nat) (f : Nat → Option Bytes)
    (hfuel : n ≤ 2 * fuel)
    (hin : ∀ i, i < n → truthy (f i) = true)
    (hout : ∀ i, n ≤ i → truthy (f i) = false) :
    (mainLoopFuel f (some n) fuel 0 ∅).finished = true ∧
    (mainLoopFuel f (some n) fuel 0 ∅).emits.map Prod.fst = List.range n ∧
    (mainLoopFuel f (some n) fuel 0 ∅).iters = (n + 1) / 2 ∧
    (n % 2 = 0 → (mainLoopFuel f (some n) fuel 0 ∅).iters = n / 2) ∧
    (n % 2 = 1 → (mainLoopFuel f (some n) fuel 0 ∅).cFinal = n + 1) ∧
    repairAttempts n (mainLoopFuel f (some n) fuel 0 ∅).received = [] := by
  obtain ⟨hm, hi, hc, hr, hf⟩ :=
    mainLoopFuel_all_present f n hin hout fuel 0 ∅ (by omega)
  refine ⟨hf, ?_, ?_, ?_, ?_, ?_⟩
  · rw [hm, Nat.sub_zero, ← List.range_eq_range']
  · rw [hi]
    omega
  · intro hev
    rw [hi]
    omega
  · intro hodd
    rw [hc]
    omega
  · unfold repairAttempts
    rw [List.filter_eq_nil_iff]
    intro a ha
    rw [List.mem_range] at ha
    simp only [decide_eq_true_eq, not_not]
    exact hr a (Nat.zero_le a) ha

/-- Witness for C7 at n = 3 chunks (odd) with two units of fuel. -/
theorem C7_witness :
    3 ≤ 2 * 2 ∧
    (mainLoopFuel (fun i => if i < 3 then some [1] else none) (some 3) 2 0
        ∅).finished = true ∧
    (mainLoopFuel (fun i => if i < 3 then some [1] else none) (some 3) 2 0
        ∅).emits.map Prod.fst = List.range 3 ∧
    (mainLoopFuel (fun i => if i < 3 then some [1] else none) (some 3) 2 0
        ∅).iters = (3 + 1) / 2 ∧
    repairAttempts 3 (mainLoopFuel (fun i => if i < 3 then some [1] else none)
        (some 3) 2 0 ∅).received = [] := by
  have h := C7_pairing_property 3 2 (fun i => if i < 3 then some [1] else none)
    (by decide) (by decide)
    (fun i hi => by
      have hng : ¬ i < 3 := by omega
      simp [truthy, hng])
  exact ⟨by decide, h.1, h.2.1, h.2.2.1, h.2.2.2.2.2⟩

/-- C8: for every request to the stream endpoint whose identifier is not
in the registry, or whose stored descriptor lacks a truthy remote URL or
filename, the endpoint responds with the JSON error body with message
Invalid stream request! and never establishes a streaming response. -/
theorem C8_invalid_stream_request (database : String → Option FileData)
    (stream_id : String)
    (h : database stream_id = none ∨
      ∃ fd, database stream_id = some fd ∧
        (strTruthy fd.file_url = false ∨ strTruthy fd.file_name = false)) :
    stream_from_stream_url database stream_id =
      StreamResponse.jsonError "Invalid stream request!" ∧
    ∀ u v, stream_from_stream_url database stream_id ≠
      StreamResponse.streaming u v := by
  have hmain : stream_from_stream_url database stream_id =
      StreamResponse.jsonError "Invalid stream request!" := by
    unfold stream_from_stream_url
    rcases h with h | ⟨fd, hfd, hbad⟩
    · rw [h]
    · rw [hfd]
      dsimp only
      have hcond : (!strTruthy fd.file_url || !strTruthy fd.file_name) = true := by
        rcases hbad with hb | hb <;> simp [hb]
      rw [if_pos hcond]
  refine ⟨hmain, fun u v hcontra => ?_⟩
  rw [hmain] at hcontra
  exact StreamResponse.noConfusion hcontra

/-- Witness for C8 with an empty registry. -/
theorem C8_witness :
    stream_from_stream_url (fun _ => none) "abc" =
      StreamResponse.jsonError "Invalid stream request!" :=
  (C8_invalid_stream_request (fun _ => none) "abc" (Or.inl rfl)).1

/-- C9: a range fetch that returns status 200 or 206 with a zero-length
body is treated exactly like an absent chunk, because delivery is decided
by the truthiness of the returned bytes, not by fetch success:
fetch_chunk returns the empty body as a success, the empty body is falsy,
and replacing every empty-body success by an absent fetch changes neither
the main loop (emissions, received set, cursor, iteration count) nor the
repair pass nor the whole session output. -/
theorem C9_empty_body_is_absent (f g : Nat → Option Bytes) (total : Option Nat)
    (fuel c n : Nat) (r : Finset Nat) :
    fetch_chunk (FetchResult.status 200 []) = Except.ok (some []) ∧
    truthy (some []) = false ∧
    mainLoopFuel (normalizeFetch f) total fuel c r = mainLoopFuel f total fuel c r ∧
    repairPass (normalizeFetch g) n r = repairPass g n r ∧
    streamBody (normalizeFetch f) (normalizeFetch g) total fuel =
      streamBody f g total fuel :=
  ⟨rfl, rfl, mainLoopFuel_normalize f total fuel c r, repairPass_normalize g n r,
    streamBody_normalize f g total fuel⟩

/-- C10: no chunk index is ever emitted twice in a relay session: the
emission indices of the main loop contain no duplicates, and for a known
total of n chunks the whole session output (main-loop emissions followed
by the repair pass) still contains no duplicate index, because the main
loop only emits indices it adds to the received set and the repair pass
only fetches indices outside that set, each at most once. -/
theorem C10_no_duplicate_chunks (f g : Nat → Option Bytes) (total : Option Nat)
    (fuel n : Nat) :
    ((mainLoopFuel f total fuel 0 ∅).emits.map Prod.fst).Nodup ∧
    (((mainLoopFuel f (some n) fuel 0 ∅).emits ++
        repairPass g n (mainLoopFuel f (some n) fuel 0 ∅).received).map
      Prod.fst).Nodup := by
  constructor
  · exact List.Pairwise.imp (fun h => Nat.ne_of_lt h)
      (mainLoopFuel_emits_indices f total fuel 0 ∅).1
  · rw [List.map_append, List.nodup_append]
    refine ⟨List.Pairwise.imp (fun h => Nat.ne_of_lt h)
      (mainLoopFuel_emits_indices f (some n) fuel 0 ∅).1, ?_, ?_⟩
    · rw [repairPass_map_fst]
      exact (repairAttempts_nodup n _).filter _
    · intro a ha hb
      rw [List.mem_map] at ha hb
      rcases ha with ⟨p, hp, hpa⟩
      rcases hb with ⟨q, hq, hqa⟩
      have h1 : p.1 ∈ (mainLoopFuel f (some n) fuel 0 ∅).received :=
        mainLoopFuel_emits_mem_received f (some n) fuel 0 ∅ p hp
      have h2 := ((repairPass_mem g n _ q).mp hq).2.1
      rw [hpa] at h1
      rw [hqa] at h2
      exact h2 h1
